import Mathlib

/-!
Shallow embedding of the WeaveApp2 document-store core.

The embedded code consists of the PDF-name sanitizers, the collision
resolver inside renamePdf, the listing, and the deletion routine of the
repository.  File names are modelled as Lean strings, the managed
documents directory as an association list from names to file metadata,
and the platform filesystem calls (getInfoAsync, copyAsync, deleteAsync,
readDirectoryAsync) as explicit parameters describing their outcomes.
JavaScript strings are modelled through their character lists; all the
regular-expression operations used by the code are per-character or
anchored, so they are translated into explicit character-list functions.
-/

namespace WeaveApp

/-- Characters kept by the commit-path sanitizer regex, which replaces
every character outside the ASCII class a-z, A-Z, 0-9, dot, underscore,
hyphen.  Written over code points: 97-122 is a-z, 65-90 is A-Z,
48-57 is 0-9, 46 is the dot, 95 the underscore, 45 the hyphen. -/
def safeCharB (c : Char) : Bool :=
  let n := c.toNat
  (97 ≤ n && n ≤ 122) || (65 ≤ n && n ≤ 90) || (48 ≤ n && n ≤ 57) ||
  n == 46 || n == 95 || n == 45

/-- Characters matched by the naming-modal sanitizer regex: the reserved
punctuation set together with the control range 0-31.  Code points:
60 is the less-than sign, 62 greater-than, 58 colon, 34 double quote,
47 slash, 92 backslash, 124 pipe, 63 question mark, 42 asterisk. -/
def reservedCharB (c : Char) : Bool :=
  let n := c.toNat
  n ≤ 31 || n == 60 || n == 62 || n == 58 || n == 34 || n == 47 ||
  n == 92 || n == 124 || n == 63 || n == 42

/-- Whitespace recognized by the JavaScript trim method (WhiteSpace and
LineTerminator code points). -/
def jsWSB (c : Char) : Bool :=
  let n := c.toNat
  (9 ≤ n && n ≤ 13) || n == 32 || n == 160 || n == 5760 ||
  (8192 ≤ n && n ≤ 8202) || n == 8232 || n == 8233 || n == 8239 ||
  n == 8287 || n == 12288 || n == 65279

/-- The trim method of JavaScript strings: remove leading and trailing
whitespace. -/
def jsTrim (l : List Char) : List Char :=
  ((l.dropWhile jsWSB).reverse.dropWhile jsWSB).reverse

/-- Collapse every run of two or more underscores into a single
underscore, as the global regex replacement of underscore runs does. -/
def collapseU : List Char → List Char
  | [] => []
  | [c] => [c]
  | a :: b :: rest =>
    if a = '_' ∧ b = '_' then collapseU (b :: rest)
    else a :: collapseU (b :: rest)

/-- A character list with no two adjacent underscores (the shape of a
string the underscore-collapsing replacement leaves unchanged). -/
def NoDub (l : List Char) : Prop := l.Chain' (fun a b => ¬(a = '_' ∧ b = '_'))

/-- The case-insensitive anchored test for the extension, matching the
regex that tests for dot p d f at the end of the string. -/
def endsPdfIB (l : List Char) : Bool :=
  match l.reverse with
  | f :: d :: p :: dot :: _ =>
    (f == 'f' || f == 'F') && (d == 'd' || d == 'D') &&
    (p == 'p' || p == 'P') && dot == '.'
  | _ => false

/-- One decimal digit character. -/
def digitChar10 : Nat → Char
  | 0 => '0'
  | 1 => '1'
  | 2 => '2'
  | 3 => '3'
  | 4 => '4'
  | 5 => '5'
  | 6 => '6'
  | 7 => '7'
  | 8 => '8'
  | _ => '9'

/-- Fuel-indexed base-10 digit rendering (most significant digit first). -/
def natDigitsAux : Nat → Nat → List Char
  | 0, _ => []
  | fuel + 1, n =>
    if n < 10 then [digitChar10 n]
    else natDigitsAux fuel (n / 10) ++ [digitChar10 (n % 10)]

/-- Base-10 rendering of a natural number, as a JavaScript template
literal renders an integer. -/
def natToString (n : Nat) : String := ⟨natDigitsAux (n + 1) n⟩

/-- Replace every character outside the safe class with an underscore
(first replacement of sanitizeFileName). -/
def replaceUnsafe (l : List Char) : List Char :=
  l.map fun c => if safeCharB c then c else '_'

/-- Character-list core of sanitizeFileName: replace unsafe characters,
collapse underscore runs, trim, then append the extension unless the
case-insensitive extension test already succeeds. -/
def sanitizeFileNameL (l : List Char) : List Char :=
  let s := jsTrim (collapseU (replaceUnsafe l))
  if endsPdfIB s then s else s ++ ['.', 'p', 'd', 'f']

/-- The sanitizeFileName helper of the PDF utility module. -/
def sanitizeFileName (s : String) : String := ⟨sanitizeFileNameL s.data⟩

/-- Character-list core of the anchored case-insensitive replacement that
removes a trailing extension (used to build the collision retry name). -/
def stripPdfL (l : List Char) : List Char :=
  if endsPdfIB l then l.take (l.length - 4) else l

/-- Remove the trailing extension, case-insensitively, if present. -/
def stripPdf (s : String) : String := ⟨stripPdfL s.data⟩

/-- The components the naming modal reads from the current date when it
synthesizes a default name.  The month field is the 1-based month, i.e.
the zero-based platform month plus one, as the code computes it. -/
structure DateParts where
  year : Nat
  month : Nat
  day : Nat
  hour : Nat
  minute : Nat
  second : Nat

/-- Left-pad to two characters with a zero, as padStart does for the
numeric date fields. -/
def pad2 (n : Nat) : String :=
  if n < 10 then "0" ++ natToString n else natToString n

/-- The generateDefaultPdfName helper of the naming modal. -/
def generateDefaultPdfName (d : DateParts) (imageCount : Nat) : String :=
  "Document-" ++ natToString d.year ++ "-" ++ pad2 d.month ++ "-" ++
  pad2 d.day ++ "-" ++ pad2 d.hour ++ pad2 d.minute ++ pad2 d.second ++
  "-" ++ natToString imageCount ++ "images.pdf"

/-- Remove leading and trailing runs of dots, as the anchored global dot
replacement of the naming-modal sanitizer does. -/
def dotStrip (l : List Char) : List Char :=
  ((l.dropWhile (· = '.')).reverse.dropWhile (· = '.')).reverse

/-- Replace every reserved or control character with an underscore
(first step of the naming-modal sanitizer). -/
def replaceReserved (l : List Char) : List Char :=
  l.map fun c => if reservedCharB c then '_' else c

/-- Steps one to four of sanitizePdfName: replace reserved characters,
trim, strip leading and trailing dots, ensure the extension, then
truncate to one hundred characters when longer. -/
def sanitizePdfCoreL (l : List Char) : List Char :=
  let s1 := dotStrip (jsTrim (replaceReserved l))
  let s2 := if endsPdfIB s1 then s1 else s1 ++ ['.', 'p', 'd', 'f']
  if 100 < s2.length then s2.take 100 else s2

/-- The sanitizePdfName function of the naming modal.  The current date
and the image count (the length of the images being edited, used by the
default name) are explicit parameters of the embedding. -/
def sanitizePdfName (d : DateParts) (imageCount : Nat) (raw : String) : String :=
  let s := sanitizePdfCoreL raw.data
  if s = ['.', 'p', 'd', 'f'] ∨ jsTrim s = [] then
    generateDefaultPdfName d imageCount
  else ⟨s⟩

/-- Metadata of one stored file as getInfoAsync reports it. -/
structure FileInfo where
  size : Nat
  modificationTime : Nat
  deriving DecidableEq

/-- The managed documents directory: the files it holds, in enumeration
order, each with its metadata. -/
abbrev Dir := List (String × FileInfo)

/-- Existence check of a name inside the managed directory (the
getInfoAsync existence test on the target path). -/
def dirHas (dir : Dir) (n : String) : Bool := dir.any fun e => e.1 == n

/-- Outcome of the platform copy call: success, failure leaving nothing,
or failure leaving a partially written destination file. -/
inductive CopyOutcome
  | ok
  | failClean
  | failPartial
  deriving DecidableEq

/-- The failures renamePdf can propagate, plus the fuel marker of the
embedding of its unbounded recursion. -/
inductive RenameError
  | noDocDir
  | sourceNotFound
  | copyFailed
  | fuelOut
  deriving DecidableEq

/-- The renamePdf function.  Parameters model the platform boundary:
docOk is availability of the documents directory, srcExists the
existence of the source file, copyOut the behaviour of the copy call,
delOk the success of the best-effort source deletion, clock the
successive values of the millisecond clock, cInfo the metadata of a
successfully copied file and pInfo the metadata of a partial file left
by a failed copy.  The result is the outcome (the final name on
success), the directory afterwards, and whether the source file still
exists.  The recursion of the source is embedded with a fuel argument;
tick indexes the clock samples, one per retry. -/
def renamePdfAux (docOk srcExists : Bool) (copyOut : CopyOutcome) (delOk : Bool)
    (clock : Nat → Nat) (cInfo pInfo : FileInfo) :
    Nat → Nat → Dir → String → Except RenameError String × Dir × Bool
  | 0, _, dir, _ => (.error .fuelOut, dir, srcExists)
  | fuel + 1, tick, dir, newFileName =>
    let cleanName := sanitizeFileName newFileName
    if docOk = false then (.error .noDocDir, dir, srcExists)
    else if srcExists = false then (.error .sourceNotFound, dir, srcExists)
    else if dirHas dir cleanName then
      let timestamp := clock tick
      let uniqueName := stripPdf cleanName ++ "_" ++ natToString timestamp ++ ".pdf"
      renamePdfAux docOk srcExists copyOut delOk clock cInfo pInfo fuel (tick + 1) dir uniqueName
    else
      match copyOut with
      | .ok => (.ok cleanName, dir ++ [(cleanName, cInfo)], !delOk)
      | .failClean => (.error .copyFailed, dir, srcExists)
      | .failPartial => (.error .copyFailed, dir ++ [(cleanName, pInfo)], srcExists)

/-- renamePdf at sufficient fuel: one more unit than the number of files
in the directory, which the termination theorem shows is never
exhausted. -/
def renamePdf (docOk srcExists : Bool) (copyOut : CopyOutcome) (delOk : Bool)
    (clock : Nat → Nat) (cInfo pInfo : FileInfo) (dir : Dir) (newFileName : String) :
    Except RenameError String × Dir × Bool :=
  renamePdfAux docOk srcExists copyOut delOk clock cInfo pInfo (dir.length + 1) 0 dir newFileName

/-- One row of the listing result (the fields of the claims: name and
modification time, plus the raw size). -/
structure PdfEntry where
  name : String
  rawSize : Nat
  modificationTime : Nat
  deriving DecidableEq

/-- Enumeration phase of listAllPdfs: keep the files whose lowercased
name ends with the extension and read their metadata. -/
def scanEntries (dir : Dir) : List PdfEntry :=
  (dir.filter fun e => endsPdfIB e.1.data).map fun e =>
    ⟨e.1, e.2.size, e.2.modificationTime⟩

/-- Insertion step of a stable sort by modification time descending:
an element is placed before the first entry whose time is not larger,
so earlier-enumerated entries stay first among equal times, matching
the stable platform sort with the numeric descending comparator. -/
def insertByMtimeDesc (x : PdfEntry) : List PdfEntry → List PdfEntry
  | [] => [x]
  | y :: ys =>
    if y.modificationTime ≤ x.modificationTime then x :: y :: ys
    else y :: insertByMtimeDesc x ys

/-- Stable sort by modification time descending. -/
def sortByMtimeDesc : List PdfEntry → List PdfEntry
  | [] => []
  | x :: xs => insertByMtimeDesc x (sortByMtimeDesc xs)

/-- The listAllPdfs function: enumerate, read metadata, sort by
modification time descending with the stable platform sort. -/
def listAllPdfs (dir : Dir) : List PdfEntry := sortByMtimeDesc (scanEntries dir)

/-- The deletePdfFile function: existence check, then deletion and true,
or false without any call when the file does not exist. -/
def deletePdfFile (dir : Dir) (name : String) : Bool × Dir :=
  if dirHas dir name then (true, dir.filter fun e => !(e.1 == name))
  else (false, dir)

/-- Number of directory entries whose name has at least the given
length; the termination measure of the collision retry loop. -/
def collideCount (dir : Dir) (k : Nat) : Nat :=
  (dir.filter fun e => k ≤ e.1.length).length

/-! ### Character-level facts -/

theorem safeChar_not_ws {c : Char} (h : safeCharB c = true) : jsWSB c = false := by
  revert h
  simp only [safeCharB, jsWSB, Bool.or_eq_true, Bool.and_eq_true, decide_eq_true_eq,
    beq_iff_eq, Bool.or_eq_false_iff, Bool.and_eq_false_iff, decide_eq_false_iff_not,
    beq_eq_false_iff_ne, ne_eq]
  omega

theorem safeChar_underscore : safeCharB '_' = true := by decide

/-! ### Facts about the underscore-collapsing replacement -/

theorem collapseU_head? : ∀ l : List Char, (collapseU l).head? = l.head?
  | [] => rfl
  | [_] => rfl
  | a :: b :: rest => by
    simp only [collapseU]
    split
    · rename_i h
      rw [collapseU_head? (b :: rest)]
      simp [h.1, h.2]
    · rfl

theorem collapseU_noDub : ∀ l : List Char, NoDub (collapseU l)
  | [] => List.chain'_nil
  | [_] => List.chain'_singleton _
  | a :: b :: rest => by
    simp only [collapseU]
    split
    · exact collapseU_noDub (b :: rest)
    · rename_i h
      refine List.chain'_cons'.2 ⟨?_, collapseU_noDub (b :: rest)⟩
      intro y hy
      rw [collapseU_head? (b :: rest)] at hy
      simp only [List.head?_cons, Option.mem_def, Option.some.injEq] at hy
      subst hy
      exact h

theorem collapseU_id_of_noDub : ∀ l : List Char, NoDub l → collapseU l = l
  | [], _ => rfl
  | [_], _ => rfl
  | a :: b :: rest, h => by
    have h1 : ¬(a = '_' ∧ b = '_') := (List.chain'_cons.1 h).1
    have h2 : NoDub (b :: rest) := (List.chain'_cons.1 h).2
    simp only [collapseU, if_neg h1]
    rw [collapseU_id_of_noDub (b :: rest) h2]

theorem collapseU_append : ∀ (a r : List Char), NoDub a →
    (a.getLast? = some '_' → r.head? ≠ some '_') →
    collapseU (a ++ r) = a ++ collapseU r
  | [], _, _, _ => rfl
  | [c], r, _, hj => by
    cases r with
    | nil => simp [collapseU]
    | cons d rs =>
      have hcd : ¬(c = '_' ∧ d = '_') := by
        rintro ⟨hc, hd⟩
        exact hj (by simp [hc]) (by simp [hd])
      simp [collapseU, hcd]
  | a :: b :: as, r, ha, hj => by
    have h1 : ¬(a = '_' ∧ b = '_') := (List.chain'_cons.1 ha).1
    have h2 : NoDub (b :: as) := (List.chain'_cons.1 ha).2
    have hj2 : (b :: as).getLast? = some '_' → r.head? ≠ some '_' := by
      intro hl
      exact hj (by rw [List.getLast?_cons_cons]; exact hl)
    have ih := collapseU_append (b :: as) r h2 hj2
    show collapseU (a :: b :: (as ++ r)) = a :: b :: as ++ collapseU r
    simp only [collapseU, if_neg h1]
    rw [show b :: (as ++ r) = (b :: as) ++ r from rfl, ih]
    rfl

theorem mem_collapseU : ∀ {c : Char} (l : List Char), c ∈ collapseU l → c ∈ l
  | _, [], h => by simp [collapseU] at h
  | _, [_], h => by simp [collapseU] at h; simp [h]
  | c, a :: b :: rest, h => by
    simp only [collapseU] at h
    split at h
    · have := mem_collapseU (b :: rest) h
      simp only [List.mem_cons] at this ⊢
      tauto
    · rcases List.mem_cons.1 h with h' | h'
      · simp [h']
      · have := mem_collapseU (b :: rest) h'
        simp only [List.mem_cons] at this ⊢
        tauto

theorem noDub_of_no_underscore {l : List Char} (h : ∀ c ∈ l, c ≠ '_') : NoDub l := by
  induction l with
  | nil => simp [NoDub]
  | cons a t ih =>
    refine List.chain'_cons'.2 ⟨?_, ih fun c hc => h c (List.mem_cons_of_mem _ hc)⟩
    intro y _ hy
    exact h a (by simp) hy.1

/-! ### Facts about trimming -/

theorem dropWhile_eq_self_of_not {α : Type} {p : α → Bool} {l : List α}
    (h : ∀ c ∈ l, p c = false) : l.dropWhile p = l := by
  cases l with
  | nil => rfl
  | cons a t => exact List.dropWhile_cons_of_neg (by simp [h a (by simp)])

theorem dropWhile_eq_nil_of_all {α : Type} {p : α → Bool} {l : List α}
    (h : ∀ c ∈ l, p c = true) : l.dropWhile p = [] := by
  induction l with
  | nil => rfl
  | cons a t ih =>
    rw [List.dropWhile_cons_of_pos (h a (by simp))]
    exact ih fun c hc => h c (List.mem_cons_of_mem _ hc)

theorem jsTrim_eq_self {l : List Char} (h : ∀ c ∈ l, jsWSB c = false) : jsTrim l = l := by
  unfold jsTrim
  rw [dropWhile_eq_self_of_not h,
    dropWhile_eq_self_of_not (fun c hc => h c (List.mem_reverse.1 hc)),
    List.reverse_reverse]

theorem jsTrim_eq_nil {l : List Char} (h : ∀ c ∈ l, jsWSB c = true) : jsTrim l = [] := by
  unfold jsTrim
  rw [dropWhile_eq_nil_of_all h]
  rfl

/-! ### Facts about the extension test -/

theorem endsPdfIB_append_pdf (x : List Char) : endsPdfIB (x ++ ['.', 'p', 'd', 'f']) = true := by
  simp [endsPdfIB, List.reverse_append]

theorem endsPdfIB_length {l : List Char} (h : endsPdfIB l = true) : 4 ≤ l.length := by
  rcases hr : l.reverse with _ | ⟨f, _ | ⟨d, _ | ⟨p, _ | ⟨dot, rest⟩⟩⟩⟩ <;>
    simp [endsPdfIB, hr] at h ⊢
  have : l.length = l.reverse.length := (List.length_reverse l).symm
  rw [hr] at this
  simp at this
  omega

/-! ### Properties of the commit-path sanitizer output -/

theorem replaceUnsafe_safe {l : List Char} : ∀ c ∈ replaceUnsafe l, safeCharB c = true := by
  intro c hc
  simp only [replaceUnsafe, List.mem_map] at hc
  obtain ⟨d, _, hd⟩ := hc
  split at hd
  · subst hd; assumption
  · subst hd; exact safeChar_underscore

theorem replaceUnsafe_id {l : List Char} (h : ∀ c ∈ l, safeCharB c = true) :
    replaceUnsafe l = l := by
  unfold replaceUnsafe
  rw [List.map_congr_left fun c hc => if_pos (h c hc)]
  exact List.map_id l

theorem collapseU_safe {l : List Char} (h : ∀ c ∈ l, safeCharB c = true) :
    ∀ c ∈ collapseU l, safeCharB c = true :=
  fun c hc => h c (mem_collapseU l hc)

theorem sanitizeCoreTrim (l : List Char) :
    jsTrim (collapseU (replaceUnsafe l)) = collapseU (replaceUnsafe l) :=
  jsTrim_eq_self fun c hc =>
    safeChar_not_ws (collapseU_safe replaceUnsafe_safe c hc)

theorem sanitizeFileNameL_eq (l : List Char) :
    sanitizeFileNameL l =
      if endsPdfIB (collapseU (replaceUnsafe l)) then collapseU (replaceUnsafe l)
      else collapseU (replaceUnsafe l) ++ ['.', 'p', 'd', 'f'] := by
  unfold sanitizeFileNameL
  rw [sanitizeCoreTrim]

theorem sanitizeFileNameL_safe (l : List Char) :
    ∀ c ∈ sanitizeFileNameL l, safeCharB c = true := by
  intro c hc
  rw [sanitizeFileNameL_eq] at hc
  split at hc
  · exact collapseU_safe replaceUnsafe_safe c hc
  · rcases List.mem_append.1 hc with h | h
    · exact collapseU_safe replaceUnsafe_safe c h
    · simp only [List.mem_cons, List.not_mem_nil, or_false] at h
      rcases h with rfl | rfl | rfl | rfl <;> decide

theorem sanitizeFileNameL_noDub (l : List Char) : NoDub (sanitizeFileNameL l) := by
  rw [sanitizeFileNameL_eq]
  split
  · exact collapseU_noDub _
  · have hpdf : List.Chain' (fun a b : Char => ¬(a = '_' ∧ b = '_')) ['.', 'p', 'd', 'f'] :=
      List.chain'_cons.2 ⟨by decide, List.chain'_cons.2 ⟨by decide,
        List.chain'_cons.2 ⟨by decide, List.chain'_singleton _⟩⟩⟩
    refine List.Chain'.append (collapseU_noDub _) hpdf ?_
    intro x _ y hy
    simp only [List.head?_cons, Option.mem_def, Option.some.injEq] at hy
    subst hy
    rintro ⟨-, h⟩
    exact absurd h (by decide)

theorem sanitizeFileNameL_endsPdf (l : List Char) :
    endsPdfIB (sanitizeFileNameL l) = true := by
  rw [sanitizeFileNameL_eq]
  split
  · assumption
  · exact endsPdfIB_append_pdf _

/-! ### Digit-string facts -/

theorem digitChar10_safe (k : Nat) : safeCharB (digitChar10 k) = true := by
  unfold digitChar10
  split <;> decide

theorem digitChar10_ne_us (k : Nat) : digitChar10 k ≠ '_' := by
  unfold digitChar10
  split <;> decide

theorem natDigitsAux_safe : ∀ fuel n, ∀ c ∈ natDigitsAux fuel n, safeCharB c = true
  | 0, n => by simp [natDigitsAux]
  | fuel + 1, n => by
    intro c hc
    simp only [natDigitsAux] at hc
    split at hc
    · simp only [List.mem_singleton] at hc
      subst hc
      exact digitChar10_safe _
    · rcases List.mem_append.1 hc with h | h
      · exact natDigitsAux_safe fuel (n / 10) c h
      · simp only [List.mem_singleton] at h
        subst h
        exact digitChar10_safe _

theorem natDigitsAux_ne_us : ∀ fuel n, ∀ c ∈ natDigitsAux fuel n, c ≠ '_'
  | 0, n => by simp [natDigitsAux]
  | fuel + 1, n => by
    intro c hc
    simp only [natDigitsAux] at hc
    split at hc
    · simp only [List.mem_singleton] at hc
      subst hc
      exact digitChar10_ne_us _
    · rcases List.mem_append.1 hc with h | h
      · exact natDigitsAux_ne_us fuel (n / 10) c h
      · simp only [List.mem_singleton] at h
        subst h
        exact digitChar10_ne_us _

theorem natDigitsAux_ne_nil (fuel n : Nat) : natDigitsAux (fuel + 1) n ≠ [] := by
  simp only [natDigitsAux]
  split <;> simp

/-! ### Growth of the collision-retry candidate

When renamePdf hits a collision it builds the next candidate from the
current sanitized name by inserting an underscore and the rendered
timestamp in front of the extension.  Because a sanitized name is made
of safe characters, holds no doubled underscore, and ends with the
extension, re-sanitizing the new candidate only ever merges the single
junction pair of underscores, so the candidate grows by at least one
character per retry, whatever the clock returns. -/

theorem noDub_take {l : List Char} (h : NoDub l) (k : Nat) : NoDub (l.take k) := by
  have hsplit := List.take_append_drop k l
  rw [← hsplit] at h
  exact List.Chain'.left_of_append h

theorem stripPdfL_take {o : List Char} (hpdf : endsPdfIB o = true) :
    stripPdfL o = o.take (o.length - 4) := by
  unfold stripPdfL
  rw [if_pos hpdf]

theorem stripPdfL_length {o : List Char} (hpdf : endsPdfIB o = true) :
    (stripPdfL o).length = o.length - 4 := by
  have h4 := endsPdfIB_length hpdf
  rw [stripPdfL_take hpdf]
  simp [List.length_take]

theorem sanitizeFileNameL_grow {o ds : List Char}
    (hpdf : endsPdfIB o = true) (hnd : NoDub o)
    (hsafe : ∀ c ∈ o, safeCharB c = true)
    (hds_safe : ∀ c ∈ ds, safeCharB c = true)
    (hds_us : ∀ c ∈ ds, c ≠ '_') (hds_ne : ds ≠ []) :
    o.length < (sanitizeFileNameL (stripPdfL o ++ '_' :: (ds ++ ['.', 'p', 'd', 'f']))).length := by
  set s := stripPdfL o with hs
  set tail : List Char := '_' :: (ds ++ ['.', 'p', 'd', 'f']) with htail
  have ho4 : 4 ≤ o.length := endsPdfIB_length hpdf
  have hs_take : s = o.take (o.length - 4) := stripPdfL_take hpdf
  have hs_len : s.length = o.length - 4 := stripPdfL_length hpdf
  have hs_nd : NoDub s := by
    rw [hs_take]
    exact noDub_take hnd _
  have hs_safe : ∀ c ∈ s, safeCharB c = true := by
    intro c hc
    rw [hs_take] at hc
    exact hsafe c (List.take_subset _ _ hc)
  have hds1 : 1 ≤ ds.length := List.length_pos.2 hds_ne
  have htail_nous : ∀ c ∈ ds ++ ['.', 'p', 'd', 'f'], c ≠ '_' := by
    intro c hc
    rcases List.mem_append.1 hc with h | h
    · exact hds_us c h
    · simp only [List.mem_cons, List.not_mem_nil, or_false] at h
      rcases h with rfl | rfl | rfl | rfl <;> decide
  have htail_nd : NoDub tail := by
    rw [htail]
    refine List.chain'_cons'.2 ⟨?_, noDub_of_no_underscore htail_nous⟩
    intro y hy
    rintro ⟨-, hy'⟩
    exact htail_nous y (List.mem_of_mem_head? hy) hy'
  have htail_safe : ∀ c ∈ tail, safeCharB c = true := by
    intro c hc
    rw [htail] at hc
    rcases List.mem_cons.1 hc with rfl | hc'
    · exact safeChar_underscore
    · rcases List.mem_append.1 hc' with h | h
      · exact hds_safe c h
      · simp only [List.mem_cons, List.not_mem_nil, or_false] at h
        rcases h with rfl | rfl | rfl | rfl <;> decide
  have hu_safe : ∀ c ∈ s ++ tail, safeCharB c = true := by
    intro c hc
    rcases List.mem_append.1 hc with h | h
    · exact hs_safe c h
    · exact htail_safe c h
  have hrepl : replaceUnsafe (s ++ tail) = s ++ tail := replaceUnsafe_id hu_safe
  have key : ∃ x : List Char,
      collapseU (s ++ tail) = (x ++ '_' :: ds) ++ ['.', 'p', 'd', 'f'] ∧
      o.length < ((x ++ '_' :: ds) ++ ['.', 'p', 'd', 'f']).length := by
    by_cases hlast : s.getLast? = some '_'
    · have hsne : s ≠ [] := by
        intro h
        rw [h] at hlast
        simp at hlast
      have h1 := List.getLast?_eq_getLast s hsne
      have hlast_eq : s.getLast hsne = '_' := Option.some_inj.1 (h1.symm.trans hlast)
      have hs_eq : s = s.dropLast ++ ['_'] := by
        rw [← hlast_eq]
        exact (List.dropLast_concat_getLast hsne).symm
      have hnd' : NoDub (s.dropLast ++ ['_']) := hs_eq ▸ hs_nd
      have hnd_dl : NoDub s.dropLast := List.Chain'.left_of_append hnd'
      have hdl_last : s.dropLast.getLast? ≠ some '_' := by
        intro hcon
        have hpair := (List.chain'_append.1 hnd').2.2
        exact hpair '_' (Option.mem_def.2 hcon) '_' (by simp) ⟨rfl, rfl⟩
      have hassoc : s ++ tail = s.dropLast ++ ('_' :: tail) := by
        conv_lhs => rw [hs_eq]
        rw [List.append_assoc]
        rfl
      have happ := collapseU_append s.dropLast ('_' :: tail) hnd_dl
        fun h => absurd h hdl_last
      have hstep : collapseU ('_' :: tail) = tail := by
        rw [htail]
        show collapseU ('_' :: '_' :: (ds ++ ['.', 'p', 'd', 'f'])) = _
        simp only [collapseU, if_pos (And.intro rfl rfl)]
        exact collapseU_id_of_noDub _ htail_nd
      refine ⟨s.dropLast, ?_, ?_⟩
      · rw [hassoc, happ, hstep, htail]
        simp [List.append_assoc]
      · have hdl_len : s.dropLast.length = s.length - 1 := List.length_dropLast s
        have hslen_pos : 1 ≤ s.length := List.length_pos.2 hsne
        simp only [List.length_append, List.length_cons]
        omega
    · have happ := collapseU_append s tail hs_nd fun h => absurd h hlast
      have hid : collapseU tail = tail := collapseU_id_of_noDub tail htail_nd
      refine ⟨s, ?_, ?_⟩
      · rw [happ, hid, htail]
        simp [List.append_assoc]
      · simp only [List.length_append, List.length_cons]
        omega
  obtain ⟨x, hx, hlen⟩ := key
  rw [sanitizeFileNameL_eq, hrepl, hx]
  simp only [endsPdfIB_append_pdf, if_pos]
  exact hlen

/-! ### String-level corollaries -/

theorem sanitizeFileName_data (s : String) :
    (sanitizeFileName s).data = sanitizeFileNameL s.data := rfl

theorem sanitizeFileName_endsPdf (s : String) :
    endsPdfIB (sanitizeFileName s).data = true :=
  sanitizeFileNameL_endsPdf s.data

theorem uniqueName_data (cn : String) (ts : Nat) :
    (stripPdf cn ++ "_" ++ natToString ts ++ ".pdf").data
      = stripPdfL cn.data ++ '_' :: (natDigitsAux (ts + 1) ts ++ ['.', 'p', 'd', 'f']) := by
  have h1 : (stripPdf cn).data = stripPdfL cn.data := rfl
  have h2 : ("_" : String).data = ['_'] := rfl
  have h3 : (natToString ts).data = natDigitsAux (ts + 1) ts := rfl
  have h4 : (".pdf" : String).data = ['.', 'p', 'd', 'f'] := rfl
  simp only [String.data_append, h1, h2, h3, h4, List.append_assoc, List.singleton_append,
    List.cons_append, List.nil_append]

theorem sanitizeFileName_grow (arg : String) (ts : Nat) :
    (sanitizeFileName arg).length <
      (sanitizeFileName (stripPdf (sanitizeFileName arg) ++ "_" ++ natToString ts ++ ".pdf")).length := by
  have hq := @sanitizeFileNameL_grow
    (sanitizeFileNameL arg.data) (natDigitsAux (ts + 1) ts)
    (sanitizeFileNameL_endsPdf arg.data) (sanitizeFileNameL_noDub arg.data)
    (sanitizeFileNameL_safe arg.data)
    (natDigitsAux_safe (ts + 1) ts) (natDigitsAux_ne_us (ts + 1) ts)
    (natDigitsAux_ne_nil ts ts)
  have e1 : sanitizeFileName arg = ⟨sanitizeFileNameL arg.data⟩ := rfl
  have e2 : sanitizeFileName (stripPdf (sanitizeFileName arg) ++ "_" ++ natToString ts ++ ".pdf")
      = ⟨sanitizeFileNameL (stripPdfL (sanitizeFileNameL arg.data) ++
          '_' :: (natDigitsAux (ts + 1) ts ++ ['.', 'p', 'd', 'f']))⟩ := by
    rw [show sanitizeFileName (stripPdf (sanitizeFileName arg) ++ "_" ++ natToString ts ++ ".pdf")
        = ⟨sanitizeFileNameL (stripPdf (sanitizeFileName arg) ++ "_" ++
            natToString ts ++ ".pdf").data⟩ from rfl]
    rw [uniqueName_data, sanitizeFileName_data]
  rw [e2, e1, String.length_mk, String.length_mk]
  exact hq

/-! ### The termination measure of the collision retry -/

theorem collideCount_le_length (dir : Dir) (k : Nat) : collideCount dir k ≤ dir.length :=
  List.length_filter_le _ _

theorem collideCount_mono (dir : Dir) {k k' : Nat} (h : k ≤ k') :
    collideCount dir k' ≤ collideCount dir k := by
  induction dir with
  | nil => simp [collideCount]
  | cons e d ih =>
    by_cases h1 : k' ≤ e.1.length
    · have h2 : k ≤ e.1.length := le_trans h h1
      simp only [collideCount, List.filter_cons] at ih ⊢
      simp [h1, h2]
      omega
    · by_cases h2 : k ≤ e.1.length
      · simp only [collideCount, List.filter_cons] at ih ⊢
        simp [h1, h2]
        omega
      · simp only [collideCount, List.filter_cons] at ih ⊢
        simp [h1, h2]
        omega

theorem collideCount_strict {dir : Dir} {nm : String} {i : FileInfo}
    (hmem : (nm, i) ∈ dir) {k' : Nat} (h : nm.length < k') :
    collideCount dir k' < collideCount dir nm.length := by
  induction dir with
  | nil => cases hmem
  | cons e d ih =>
    rcases List.mem_cons.1 hmem with he | he
    · rw [← he]
      have h1 : ¬ k' ≤ nm.length := by omega
      have hmono := collideCount_mono d (le_of_lt h)
      simp only [collideCount, List.filter_cons] at hmono ⊢
      simp [h1]
      omega
    · have hstrict := ih he
      by_cases h1 : k' ≤ e.1.length
      · have h2 : nm.length ≤ e.1.length := le_trans (le_of_lt h) h1
        simp only [collideCount, List.filter_cons] at hstrict ⊢
        simp [h1, h2]
        omega
      · by_cases h2 : nm.length ≤ e.1.length
        · simp only [collideCount, List.filter_cons] at hstrict ⊢
          simp [h1, h2]
          omega
        · simp only [collideCount, List.filter_cons] at hstrict ⊢
          simp [h1, h2]
          omega

theorem dirHas_exists {dir : Dir} {n : String} (h : dirHas dir n = true) :
    ∃ i, (n, i) ∈ dir := by
  simp only [dirHas, List.any_eq_true, beq_iff_eq] at h
  obtain ⟨⟨a, b⟩, hm, hd⟩ := h
  simp only at hd
  subst hd
  exact ⟨b, hm⟩

theorem dirHas_of_mem {dir : Dir} {n : String} {i : FileInfo} (h : (n, i) ∈ dir) :
    dirHas dir n = true := by
  simp only [dirHas, List.any_eq_true, beq_iff_eq]
  exact ⟨(n, i), h, rfl⟩

/-! ### Behaviour of the embedded renamePdf -/

theorem renamePdfAux_ok_elim
    (docOk srcExists : Bool) (copyOut : CopyOutcome) (delOk : Bool)
    (clock : Nat → Nat) (cInfo pInfo : FileInfo) :
    ∀ (fuel tick : Nat) (dir : Dir) (name : String)
      (res : Except RenameError String × Dir × Bool),
      renamePdfAux docOk srcExists copyOut delOk clock cInfo pInfo fuel tick dir name = res →
      ∀ n, res.1 = .ok n →
      dirHas dir n = false ∧ res.2.1 = dir ++ [(n, cInfo)] ∧ endsPdfIB n.data = true := by
  intro fuel
  induction fuel with
  | zero =>
    intro tick dir name res hres n hok
    subst hres
    simp [renamePdfAux] at hok
  | succ f ih =>
    intro tick dir name res hres n hok
    simp only [renamePdfAux] at hres
    by_cases hdoc : docOk = false
    · rw [if_pos hdoc] at hres
      subst hres
      simp at hok
    · rw [if_neg hdoc] at hres
      by_cases hsrc : srcExists = false
      · rw [if_pos hsrc] at hres
        subst hres
        simp at hok
      · rw [if_neg hsrc] at hres
        by_cases hcol : dirHas dir (sanitizeFileName name) = true
        · rw [if_pos hcol] at hres
          exact ih (tick + 1) dir _ res hres n hok
        · rw [if_neg hcol] at hres
          cases copyOut with
          | ok =>
            subst hres
            simp only [Except.ok.injEq] at hok
            subst hok
            exact ⟨by simpa using hcol, rfl, sanitizeFileName_endsPdf name⟩
          | failClean =>
            subst hres
            simp at hok
          | failPartial =>
            subst hres
            simp at hok

theorem renamePdfAux_master (clock : Nat → Nat) :
    ∀ (fuel tick : Nat) (dir : Dir) (name : String),
      collideCount dir (sanitizeFileName name).length < fuel →
      ∃ n : String, dirHas dir n = false ∧ endsPdfIB n.data = true ∧
        ∀ (copyOut : CopyOutcome) (delOk : Bool) (cInfo pInfo : FileInfo),
          renamePdfAux true true copyOut delOk clock cInfo pInfo fuel tick dir name =
            (match copyOut with
              | .ok => (.ok n, dir ++ [(n, cInfo)], !delOk)
              | .failClean => (.error .copyFailed, dir, true)
              | .failPartial => (.error .copyFailed, dir ++ [(n, pInfo)], true)) := by
  intro fuel
  induction fuel with
  | zero =>
    intro tick dir name h
    omega
  | succ f ih =>
    intro tick dir name h
    by_cases hcol : dirHas dir (sanitizeFileName name) = true
    · obtain ⟨i, hmem⟩ := dirHas_exists hcol
      have hgrow := sanitizeFileName_grow name (clock tick)
      have hdec := collideCount_strict hmem hgrow
      obtain ⟨n, h1, h2, h3⟩ := ih (tick + 1) dir
        (stripPdf (sanitizeFileName name) ++ "_" ++ natToString (clock tick) ++ ".pdf")
        (by omega)
      refine ⟨n, h1, h2, ?_⟩
      intro copyOut delOk cInfo pInfo
      simp only [renamePdfAux]
      rw [if_neg (by simp), if_neg (by simp), if_pos hcol]
      exact h3 copyOut delOk cInfo pInfo
    · refine ⟨sanitizeFileName name, by simpa using hcol, sanitizeFileName_endsPdf name, ?_⟩
      intro copyOut delOk cInfo pInfo
      simp only [renamePdfAux]
      rw [if_neg (by simp), if_neg (by simp), if_neg hcol]

theorem renamePdf_master (clock : Nat → Nat) (dir : Dir) (name : String) :
    ∃ n : String, dirHas dir n = false ∧ endsPdfIB n.data = true ∧
      ∀ (copyOut : CopyOutcome) (delOk : Bool) (cInfo pInfo : FileInfo),
        renamePdf true true copyOut delOk clock cInfo pInfo dir name =
          (match copyOut with
            | .ok => (.ok n, dir ++ [(n, cInfo)], !delOk)
            | .failClean => (.error .copyFailed, dir, true)
            | .failPartial => (.error .copyFailed, dir ++ [(n, pInfo)], true)) :=
  renamePdfAux_master clock (dir.length + 1) 0 dir name
    (Nat.lt_succ_of_le (collideCount_le_length dir _))

/-! ### Facts about the listing -/

theorem mem_insertByMtimeDesc {x a : PdfEntry} {l : List PdfEntry} :
    a ∈ insertByMtimeDesc x l ↔ a = x ∨ a ∈ l := by
  induction l with
  | nil => simp [insertByMtimeDesc]
  | cons y ys ih =>
    simp only [insertByMtimeDesc]
    split
    · simp only [List.mem_cons]
    · simp only [List.mem_cons, ih]
      tauto

theorem sorted_insertByMtimeDesc {x : PdfEntry} {l : List PdfEntry}
    (h : l.Pairwise fun a b => b.modificationTime ≤ a.modificationTime) :
    (insertByMtimeDesc x l).Pairwise fun a b => b.modificationTime ≤ a.modificationTime := by
  induction l with
  | nil => simp [insertByMtimeDesc]
  | cons y ys ih =>
    rcases List.pairwise_cons.1 h with ⟨hy, hys⟩
    simp only [insertByMtimeDesc]
    split
    · rename_i hle
      refine List.pairwise_cons.2 ⟨?_, h⟩
      intro b hb
      rcases List.mem_cons.1 hb with rfl | hb'
      · exact hle
      · exact le_trans (hy b hb') hle
    · rename_i hlt
      refine List.pairwise_cons.2 ⟨?_, ih hys⟩
      intro b hb
      rcases mem_insertByMtimeDesc.1 hb with rfl | hb'
      · omega
      · exact hy b hb'

theorem sorted_sortByMtimeDesc (l : List PdfEntry) :
    (sortByMtimeDesc l).Pairwise fun a b => b.modificationTime ≤ a.modificationTime := by
  induction l with
  | nil => simp [sortByMtimeDesc]
  | cons x xs ih => exact sorted_insertByMtimeDesc ih

theorem filter_insertByMtimeDesc (x : PdfEntry) (m : Nat) (l : List PdfEntry) :
    (insertByMtimeDesc x l).filter (fun e => e.modificationTime == m)
      = ((x :: l).filter fun e => e.modificationTime == m) := by
  induction l with
  | nil => rfl
  | cons y ys ih =>
    simp only [insertByMtimeDesc]
    split
    · rfl
    · rename_i hlt
      by_cases hx : x.modificationTime = m
      · have hy : ¬ y.modificationTime = m := by omega
        simp [List.filter_cons, ih, hx, hy]
      · by_cases hy : y.modificationTime = m <;>
          simp [List.filter_cons, ih, hx, hy]

theorem filter_sortByMtimeDesc (m : Nat) (l : List PdfEntry) :
    (sortByMtimeDesc l).filter (fun e => e.modificationTime == m)
      = (l.filter fun e => e.modificationTime == m) := by
  induction l with
  | nil => rfl
  | cons x xs ih =>
    show ((insertByMtimeDesc x (sortByMtimeDesc xs)).filter fun e => e.modificationTime == m) = _
    rw [filter_insertByMtimeDesc]
    simp only [List.filter_cons, ih]

theorem mem_sortByMtimeDesc {a : PdfEntry} {l : List PdfEntry} :
    a ∈ sortByMtimeDesc l ↔ a ∈ l := by
  induction l with
  | nil => simp [sortByMtimeDesc]
  | cons x xs ih => simp [sortByMtimeDesc, mem_insertByMtimeDesc, ih]

theorem name_mem_listAllPdfs {dir : Dir} {n : String} {i : FileInfo}
    (hmem : (n, i) ∈ dir) (hpdf : endsPdfIB n.data = true) :
    n ∈ (listAllPdfs dir).map PdfEntry.name := by
  unfold listAllPdfs
  simp only [List.mem_map]
  refine ⟨⟨n, i.size, i.modificationTime⟩, ?_, rfl⟩
  rw [mem_sortByMtimeDesc]
  unfold scanEntries
  simp only [List.mem_map, List.mem_filter]
  exact ⟨(n, i), ⟨hmem, hpdf⟩, rfl⟩

theorem ws_not_reserved {c : Char} (hws : jsWSB c = true) (hgt : 31 < c.toNat) :
    reservedCharB c = false := by
  revert hws
  simp only [jsWSB, reservedCharB, Bool.or_eq_true, Bool.and_eq_true, decide_eq_true_eq,
    beq_iff_eq, Bool.or_eq_false_iff, Bool.and_eq_false_iff, decide_eq_false_iff_not,
    beq_eq_false_iff_ne, ne_eq]
  omega

/-! ### The claims -/

/-- Claim C2: the spec asserts that for every raw name longer than one
hundred characters, sanitizePdfName returns an output of length at most
one hundred that still ends with the canonical extension.  The code
truncates after the extension has been enforced and never re-checks, so
for the one-hundred-and-one-character name of letters a the output is
the first hundred letters with no extension at all, contradicting the
claim and the function's own documentation, which promises that the
extension is ensured.  This theorem evaluates the embedding at that
failing input: the length bound holds but the extension is gone. -/
theorem claim2_long_name_loses_extension (d : DateParts) (imageCount : Nat) :
    sanitizePdfName d imageCount (String.mk (List.replicate 101 'a'))
        = String.mk (List.replicate 100 'a') ∧
    (sanitizePdfName d imageCount (String.mk (List.replicate 101 'a'))).length = 100 ∧
    endsPdfIB (sanitizePdfName d imageCount (String.mk (List.replicate 101 'a'))).data
      = false := by
  have hcore : sanitizePdfCoreL (String.mk (List.replicate 101 'a')).data
      = List.replicate 100 'a' := by decide
  have hcond : ¬(sanitizePdfCoreL (String.mk (List.replicate 101 'a')).data
      = ['.', 'p', 'd', 'f'] ∨
      jsTrim (sanitizePdfCoreL (String.mk (List.replicate 101 'a')).data) = []) := by decide
  simp only [sanitizePdfName]
  rw [if_neg hcond, hcore]
  refine ⟨rfl, rfl, by decide⟩

/-- Claim C5: when the source file does not exist at the start of
commit, renamePdf fails with the source-not-found error, the managed
directory is unchanged, and a subsequent listing is unchanged. -/
theorem claim5_source_missing (copyOut : CopyOutcome) (delOk : Bool) (clock : Nat → Nat)
    (cInfo pInfo : FileInfo) (dir : Dir) (name : String) :
    renamePdf true false copyOut delOk clock cInfo pInfo dir name
        = (.error .sourceNotFound, dir, false) ∧
    listAllPdfs (renamePdf true false copyOut delOk clock cInfo pInfo dir name).2.1
        = listAllPdfs dir := by
  have h : renamePdf true false copyOut delOk clock cInfo pInfo dir name
      = (.error .sourceNotFound, dir, false) := by
    simp [renamePdf, renamePdfAux]
  exact ⟨h, by rw [h]⟩

/-- Claim C6: deletePdfFile removes an existing document and returns
true; on a missing document it returns false and leaves the directory
unchanged, and a second deletion of the same name returns false, so
deletion is idempotent. -/
theorem claim6_delete_idempotent (dir : Dir) (name : String) :
    (dirHas dir name = false → deletePdfFile dir name = (false, dir)) ∧
    (dirHas dir name = true →
      (deletePdfFile dir name).1 = true ∧
      dirHas (deletePdfFile dir name).2 name = false ∧
      deletePdfFile (deletePdfFile dir name).2 name
        = (false, (deletePdfFile dir name).2)) := by
  constructor
  · intro h
    unfold deletePdfFile
    rw [if_neg (by simp [h])]
  · intro h
    have hdel : deletePdfFile dir name = (true, dir.filter fun e => !(e.1 == name)) := by
      unfold deletePdfFile
      rw [if_pos h]
    have hgone : dirHas (dir.filter fun e => !(e.1 == name)) name = false := by
      by_contra hcon
      rw [Bool.not_eq_false] at hcon
      obtain ⟨i, hi⟩ := dirHas_exists hcon
      have := (List.mem_filter.1 hi).2
      simp at this
    rw [hdel]
    refine ⟨rfl, hgone, ?_⟩
    unfold deletePdfFile
    rw [if_neg (by simp [hgone])]

/-- Witness for claim C6 at concrete inputs: deleting a name that was
never created returns false and changes nothing, and deleting an
existing document returns true. -/
theorem claim6_witness :
    deletePdfFile ([] : Dir) "ghost.pdf" = (false, []) ∧
    (deletePdfFile [("x.pdf", ⟨1, 1⟩)] "x.pdf").1 = true :=
  ⟨(claim6_delete_idempotent [] "ghost.pdf").1 rfl,
    ((claim6_delete_idempotent [("x.pdf", ⟨1, 1⟩)] "x.pdf").2 rfl).1⟩

/-- Counterexample to claim C7 as stated: a tab character is whitespace,
so a tab-only input is whitespace-only, yet sanitizePdfName does not
synthesize a default name for it.  The control-character replacement
turns the tab into an underscore before trimming happens, and the
result is the underscore with the extension appended. -/
theorem claim7_counterexample :
    sanitizePdfName ⟨2024, 1, 2, 3, 4, 5⟩ 3 "\t" = "_.pdf" ∧
    (∀ c ∈ ("\t" : String).data, jsWSB c = true) ∧
    sanitizePdfName ⟨2024, 1, 2, 3, 4, 5⟩ 3 "\t"
      ≠ generateDefaultPdfName ⟨2024, 1, 2, 3, 4, 5⟩ 3 := by
  refine ⟨rfl, by decide, by decide⟩

/-- Claim C7, amended: for every input that is empty or consists only of
whitespace characters outside the control range (for example spaces;
control whitespace such as tab is first replaced by an underscore and
escapes the default), and for every input whose sanitized candidate
equals just the extension, sanitizePdfName discards the candidate and
returns the synthesized default name, which embeds the supplied image
count; and sanitizePdfName is total and never returns the empty
string. -/
theorem claim7_default_synthesis :
    (∀ (d : DateParts) (imageCount : Nat) (raw : String),
      ((∀ c ∈ raw.data, jsWSB c = true ∧ 31 < c.toNat) ∨
          sanitizePdfCoreL raw.data = ['.', 'p', 'd', 'f']) →
      sanitizePdfName d imageCount raw = generateDefaultPdfName d imageCount) ∧
    (∀ (d : DateParts) (imageCount : Nat),
      ∃ pre : String, generateDefaultPdfName d imageCount
        = pre ++ natToString imageCount ++ "images.pdf") ∧
    (∀ (d : DateParts) (imageCount : Nat) (raw : String),
      sanitizePdfName d imageCount raw ≠ "") := by
  refine ⟨?_, ?_, ?_⟩
  · intro d cnt raw h
    rcases h with hws | hcore
    · have hres : replaceReserved raw.data = raw.data := by
        unfold replaceReserved
        have hcong : ∀ c ∈ raw.data, (if reservedCharB c then '_' else c) = c :=
          fun c hc => by simp [ws_not_reserved (hws c hc).1 (hws c hc).2]
        rw [List.map_congr_left hcong]
        exact List.map_id raw.data
      have htrim : jsTrim raw.data = [] := jsTrim_eq_nil fun c hc => (hws c hc).1
      have hcore : sanitizePdfCoreL raw.data = ['.', 'p', 'd', 'f'] := by
        unfold sanitizePdfCoreL
        rw [hres, htrim]
        rfl
      simp only [sanitizePdfName]
      rw [if_pos (Or.inl hcore)]
    · simp only [sanitizePdfName]
      rw [if_pos (Or.inl hcore)]
  · intro d cnt
    exact ⟨"Document-" ++ natToString d.year ++ "-" ++ pad2 d.month ++ "-" ++
      pad2 d.day ++ "-" ++ pad2 d.hour ++ pad2 d.minute ++ pad2 d.second ++ "-", rfl⟩
  · intro d cnt raw
    simp only [sanitizePdfName]
    split
    · intro hcon
      have hlen := congrArg String.length hcon
      simp only [generateDefaultPdfName] at hlen
      rw [String.length_append] at hlen
      have h10 : ("images.pdf" : String).length = 10 := rfl
      have h0 : ("" : String).length = 0 := rfl
      omega
    · rename_i hcond
      intro hcon
      have hdata : sanitizePdfCoreL raw.data = [] := congrArg String.data hcon
      exact hcond (Or.inr (by rw [hdata]; rfl))

/-- Witness for claim C7 at a concrete input: a space-only name gets the
synthesized default. -/
theorem claim7_witness :
    sanitizePdfName ⟨2024, 1, 2, 3, 4, 5⟩ 7 "   "
      = generateDefaultPdfName ⟨2024, 1, 2, 3, 4, 5⟩ 7 :=
  claim7_default_synthesis.1 ⟨2024, 1, 2, 3, 4, 5⟩ 7 "   " (Or.inl (by decide))

/-- Claim C10: the commit-path sanitizer sanitizeFileName keeps only the
safe character class, replacing everything else with underscores and
collapsing underscore runs; it applies no hundred-character cap and
never synthesizes a default, and the empty string maps to the bare
extension.  Stated as: every output character is in the safe class, the
output has no doubled underscore, the empty string maps to the bare
extension, a name with a slash and a colon maps to the underscored form,
and a two-hundred-character name keeps all its characters plus the
extension. -/
theorem claim10_commit_sanitizer_shape (s : String) :
    (∀ c ∈ (sanitizeFileName s).data, safeCharB c = true) ∧
    NoDub (sanitizeFileName s).data ∧
    sanitizeFileName "" = ".pdf" ∧
    sanitizeFileName "My/Report:2024" = "My_Report_2024.pdf" ∧
    (sanitizeFileName (String.mk (List.replicate 200 'a'))).length = 204 :=
  ⟨sanitizeFileNameL_safe s.data, sanitizeFileNameL_noDub s.data, rfl, rfl, rfl⟩

/-- Claim C1: on every successful commit the collision resolver's final
name did not exist in the directory at the moment of the existence
check, and two successful commits in sequence with the same desired
display name produce two distinct stored documents, both of whose names
appear in a subsequent listing. -/
theorem claim1_resolve_fresh_and_double_commit
    (delOk1 delOk2 : Bool) (clock1 clock2 : Nat → Nat)
    (ci1 pi1 ci2 pi2 : FileInfo) (dir : Dir) (name : String) (n1 n2 : String)
    (h1 : (renamePdf true true .ok delOk1 clock1 ci1 pi1 dir name).1 = .ok n1)
    (h2 : (renamePdf true true .ok delOk2 clock2 ci2 pi2
        ((renamePdf true true .ok delOk1 clock1 ci1 pi1 dir name).2.1) name).1 = .ok n2) :
    dirHas dir n1 = false ∧
    dirHas ((renamePdf true true .ok delOk1 clock1 ci1 pi1 dir name).2.1) n2 = false ∧
    n1 ≠ n2 ∧
    n1 ∈ ((listAllPdfs ((renamePdf true true .ok delOk2 clock2 ci2 pi2
        ((renamePdf true true .ok delOk1 clock1 ci1 pi1 dir name).2.1) name).2.1)).map
        PdfEntry.name) ∧
    n2 ∈ ((listAllPdfs ((renamePdf true true .ok delOk2 clock2 ci2 pi2
        ((renamePdf true true .ok delOk1 clock1 ci1 pi1 dir name).2.1) name).2.1)).map
        PdfEntry.name) := by
  set d1 := (renamePdf true true .ok delOk1 clock1 ci1 pi1 dir name).2.1 with hd1
  set d2 := (renamePdf true true .ok delOk2 clock2 ci2 pi2 d1 name).2.1 with hd2
  obtain ⟨hfree1, hdir1, hpdf1⟩ :=
    renamePdfAux_ok_elim true true .ok delOk1 clock1 ci1 pi1 (dir.length + 1) 0 dir name
      (renamePdf true true .ok delOk1 clock1 ci1 pi1 dir name) rfl n1 h1
  obtain ⟨hfree2, hdir2, hpdf2⟩ :=
    renamePdfAux_ok_elim true true .ok delOk2 clock2 ci2 pi2 (d1.length + 1) 0 d1 name
      (renamePdf true true .ok delOk2 clock2 ci2 pi2 d1 name) rfl n2 h2
  have hD1 : d1 = dir ++ [(n1, ci1)] := hdir1
  have hD2 : d2 = d1 ++ [(n2, ci2)] := hdir2
  have hmem1 : (n1, ci1) ∈ d1 := by
    rw [hD1]
    simp
  have hne : n1 ≠ n2 := by
    intro he
    have hhas := dirHas_of_mem (he ▸ hmem1)
    rw [hfree2] at hhas
    simp at hhas
  have hmem1' : (n1, ci1) ∈ d2 := by
    rw [hD2]
    exact List.mem_append_left _ hmem1
  have hmem2 : (n2, ci2) ∈ d2 := by
    rw [hD2]
    simp
  exact ⟨hfree1, hfree2, hne,
    name_mem_listAllPdfs hmem1' hpdf1, name_mem_listAllPdfs hmem2 hpdf2⟩

/-- Witness for claim C1 at a concrete input: committing Invoice twice
into an empty directory stores Invoice.pdf and then Invoice_111.pdf,
both listed afterwards. -/
theorem claim1_witness :
    dirHas ([] : Dir) "Invoice.pdf" = false ∧
    dirHas ((renamePdf true true .ok true (fun _ => 111) ⟨1, 1⟩ ⟨0, 0⟩ [] "Invoice").2.1)
        "Invoice_111.pdf" = false ∧
    ("Invoice.pdf" : String) ≠ "Invoice_111.pdf" ∧
    "Invoice.pdf" ∈ ((listAllPdfs ((renamePdf true true .ok true (fun _ => 111) ⟨1, 1⟩ ⟨0, 0⟩
        ((renamePdf true true .ok true (fun _ => 111) ⟨1, 1⟩ ⟨0, 0⟩ [] "Invoice").2.1)
        "Invoice").2.1)).map PdfEntry.name) ∧
    "Invoice_111.pdf" ∈ ((listAllPdfs ((renamePdf true true .ok true (fun _ => 111) ⟨1, 1⟩ ⟨0, 0⟩
        ((renamePdf true true .ok true (fun _ => 111) ⟨1, 1⟩ ⟨0, 0⟩ [] "Invoice").2.1)
        "Invoice").2.1)).map PdfEntry.name) :=
  claim1_resolve_fresh_and_double_commit true true (fun _ => 111) (fun _ => 111)
    ⟨1, 1⟩ ⟨0, 0⟩ ⟨1, 1⟩ ⟨0, 0⟩ [] "Invoice" "Invoice.pdf" "Invoice_111.pdf" rfl rfl

/-- Counterexample to claim C3 as stated: with two equal modification
times the listing keeps the enumeration order of the directory, so the
entry named b.pdf enumerated first stays before a.pdf; equal-time
entries are not reordered by name ascending. -/
theorem claim3_counterexample :
    (listAllPdfs [("b.pdf", ⟨1, 5⟩), ("a.pdf", ⟨1, 5⟩)]).map PdfEntry.name
        = ["b.pdf", "a.pdf"] ∧
    ¬ (listAllPdfs [("b.pdf", ⟨1, 5⟩), ("a.pdf", ⟨1, 5⟩)]).Pairwise
        (fun x y => x.modificationTime = y.modificationTime → x.name ≤ y.name) := by
  refine ⟨rfl, ?_⟩
  intro h
  have hl : listAllPdfs [("b.pdf", ⟨1, 5⟩), ("a.pdf", ⟨1, 5⟩)]
      = [⟨"b.pdf", 1, 5⟩, ⟨"a.pdf", 1, 5⟩] := rfl
  rw [hl] at h
  have hba := (List.pairwise_cons.1 h).1 ⟨"a.pdf", 1, 5⟩ (by simp) rfl
  rw [String.le_iff_toList_le] at hba
  exact absurd hba (by decide)

/-- Claim C3, amended: the listing is sorted by modification time
descending, and entries with equal modification time keep their
enumeration order (the platform sort is stable) rather than being
reordered by name; documents with times t1 less than t2 less than t3
are returned newest first. -/
theorem claim3_sorted_desc_stable :
    (∀ dir : Dir, (listAllPdfs dir).Pairwise
        fun a b => b.modificationTime ≤ a.modificationTime) ∧
    (∀ (dir : Dir) (m : Nat),
      ((listAllPdfs dir).filter fun e => e.modificationTime == m)
        = ((scanEntries dir).filter fun e => e.modificationTime == m)) ∧
    (∀ t1 t2 t3 s1 s2 s3 : Nat, t1 < t2 → t2 < t3 →
      (listAllPdfs [("a.pdf", ⟨s1, t1⟩), ("b.pdf", ⟨s2, t2⟩), ("c.pdf", ⟨s3, t3⟩)]).map
          PdfEntry.modificationTime = [t3, t2, t1]) := by
  refine ⟨fun dir => sorted_sortByMtimeDesc _, fun dir m => filter_sortByMtimeDesc m _, ?_⟩
  intro t1 t2 t3 s1 s2 s3 h12 h23
  have hscan : scanEntries [("a.pdf", ⟨s1, t1⟩), ("b.pdf", ⟨s2, t2⟩), ("c.pdf", ⟨s3, t3⟩)]
      = [⟨"a.pdf", s1, t1⟩, ⟨"b.pdf", s2, t2⟩, ⟨"c.pdf", s3, t3⟩] := rfl
  unfold listAllPdfs
  rw [hscan]
  have hB : insertByMtimeDesc (⟨"b.pdf", s2, t2⟩ : PdfEntry) [⟨"c.pdf", s3, t3⟩]
      = [⟨"c.pdf", s3, t3⟩, ⟨"b.pdf", s2, t2⟩] := by
    simp [insertByMtimeDesc, show ¬(t3 ≤ t2) from by omega]
  have hA : insertByMtimeDesc (⟨"a.pdf", s1, t1⟩ : PdfEntry)
        [⟨"c.pdf", s3, t3⟩, ⟨"b.pdf", s2, t2⟩]
      = [⟨"c.pdf", s3, t3⟩, ⟨"b.pdf", s2, t2⟩, ⟨"a.pdf", s1, t1⟩] := by
    simp [insertByMtimeDesc, show ¬(t3 ≤ t1) from by omega, show ¬(t2 ≤ t1) from by omega]
  have hsort : sortByMtimeDesc [⟨"a.pdf", s1, t1⟩, ⟨"b.pdf", s2, t2⟩, ⟨"c.pdf", s3, t3⟩]
      = [⟨"c.pdf", s3, t3⟩, ⟨"b.pdf", s2, t2⟩, ⟨"a.pdf", s1, t1⟩] := by
    simp only [sortByMtimeDesc]
    rw [show insertByMtimeDesc (⟨"c.pdf", s3, t3⟩ : PdfEntry) [] = [⟨"c.pdf", s3, t3⟩]
      from rfl, hB, hA]
  rw [hsort]
  rfl

/-- Witness for claim C3 at a concrete input: times one, two, three come
back as three, two, one. -/
theorem claim3_witness :
    (listAllPdfs [("a.pdf", ⟨0, 1⟩), ("b.pdf", ⟨0, 2⟩), ("c.pdf", ⟨0, 3⟩)]).map
        PdfEntry.modificationTime = [3, 2, 1] :=
  claim3_sorted_desc_stable.2.2 1 2 3 0 0 0 (by omega) (by omega)

/-- Counterexample to claim C4 as stated: when the copy fails leaving a
partially written destination file, renamePdf propagates the error
without removing the partial file, which stays visible in the managed
directory. -/
theorem claim4_counterexample :
    renamePdf true true .failPartial true (fun _ => 0) ⟨1, 1⟩ ⟨0, 0⟩ [] "Report"
        = (.error .copyFailed, [("Report.pdf", ⟨0, 0⟩)], true) ∧
    dirHas (renamePdf true true .failPartial true (fun _ => 0) ⟨1, 1⟩ ⟨0, 0⟩
        [] "Report").2.1 "Report.pdf" = true :=
  ⟨rfl, rfl⟩

/-- Claim C4, amended: if the copy to the destination fails, commit
fails with the propagated copy error, but the code performs no cleanup
of the destination: the managed directory is left exactly as the failed
copy left it, so a partial destination file, when the platform copy
leaves one, remains visible after the error. -/
theorem claim4_copy_failure_no_cleanup (delOk : Bool) (clock : Nat → Nat)
    (cInfo pInfo : FileInfo) (dir : Dir) (name : String) :
    ∃ n : String, dirHas dir n = false ∧
      renamePdf true true .failPartial delOk clock cInfo pInfo dir name
        = (.error .copyFailed, dir ++ [(n, pInfo)], true) ∧
      dirHas (dir ++ [(n, pInfo)]) n = true := by
  obtain ⟨n, hfree, hpdf, hall⟩ := renamePdf_master clock dir name
  refine ⟨n, hfree, ?_,
    dirHas_of_mem (List.mem_append_right dir (List.mem_singleton_self (n, pInfo)))⟩
  simpa using hall .failPartial delOk cInfo pInfo

/-- Counterexample to claim C8 as stated: with a clock frozen at
millisecond 111 the resolver retries twice; the second retry re-samples
the clock but obtains the same value 111 again, which is not strictly
fresher, as the created name bearing the timestamp twice shows, and
resolution still converges. -/
theorem claim8_counterexample :
    (renamePdf true true .ok true (fun _ => 111) ⟨1, 1⟩ ⟨1, 1⟩
        [("Invoice.pdf", ⟨1, 1⟩), ("Invoice_111.pdf", ⟨1, 1⟩)] "Invoice").1
      = .ok "Invoice_111_111.pdf" ∧ ¬ (111 > 111) :=
  ⟨rfl, by omega⟩

/-- Claim C8, amended: collision resolution terminates for every
directory state and every clock behaviour.  Each retry re-samples the
clock, but the sample need not be strictly fresher; termination holds
regardless, because every retry appends an underscore and the rendered
timestamp, making each candidate strictly longer than the previous one,
so a finite directory can collide only finitely often.  One fuel unit
per directory entry plus one is never exhausted. -/
theorem claim8_termination (docOk srcExists : Bool) (copyOut : CopyOutcome) (delOk : Bool)
    (clock : Nat → Nat) (cInfo pInfo : FileInfo) (dir : Dir) (name : String) :
    (renamePdf docOk srcExists copyOut delOk clock cInfo pInfo dir name).1
      ≠ .error .fuelOut := by
  cases docOk with
  | false =>
    have h : renamePdf false srcExists copyOut delOk clock cInfo pInfo dir name
        = (.error .noDocDir, dir, srcExists) := by
      simp [renamePdf, renamePdfAux]
    rw [h]
    simp
  | true =>
    cases srcExists with
    | false =>
      have h : renamePdf true false copyOut delOk clock cInfo pInfo dir name
          = (.error .sourceNotFound, dir, false) := by
        simp [renamePdf, renamePdfAux]
      rw [h]
      simp
    | true =>
      obtain ⟨n, hfree, hpdf, hall⟩ := renamePdf_master clock dir name
      rw [hall copyOut delOk cInfo pInfo]
      cases copyOut <;> simp

/-- Claim C9: when the copy succeeds but the best-effort deletion of the
source fails, the failure is swallowed: commit still returns success,
the durable artifact is in the managed directory, and the outcome
equals the outcome of a run whose source deletion succeeds; only the
leftover source file differs. -/
theorem claim9_source_delete_failure_swallowed (clock : Nat → Nat)
    (cInfo pInfo : FileInfo) (dir : Dir) (name : String) :
    ∃ n : String,
      renamePdf true true .ok false clock cInfo pInfo dir name
        = (.ok n, dir ++ [(n, cInfo)], true) ∧
      dirHas (dir ++ [(n, cInfo)]) n = true ∧
      (renamePdf true true .ok false clock cInfo pInfo dir name).1
        = (renamePdf true true .ok true clock cInfo pInfo dir name).1 := by
  obtain ⟨n, hfree, hpdf, hall⟩ := renamePdf_master clock dir name
  refine ⟨n, ?_,
    dirHas_of_mem (List.mem_append_right dir (List.mem_singleton_self (n, cInfo))), ?_⟩
  · simpa using hall .ok false cInfo pInfo
  · rw [hall .ok false cInfo pInfo, hall .ok true cInfo pInfo]

end WeaveApp
